import Mathlib

/-!
# MechAI backend: verified model of `backend/main.py`

A shallow embedding of the read-only FastAPI service in `backend/main.py`:
the relational rows it reads, the string-identifier decoding performed by
`get_procedure` / `get_step` (Python `str.startswith`, `str.replace` and
`int(...)`), and the four endpoint handlers, together with theorems about
the request/response contract.
-/

namespace MechAI

/-! ## Models of the Python string primitives used by the handlers -/

/-- Whitespace characters stripped by Python `int(str)` before parsing
(the six ASCII whitespace characters; the model covers ASCII input). -/
def isPySpace (c : Char) : Bool :=
  c = ' ' || c = '\t' || c = '\n' || c = '\r' || c = '\x0b' || c = '\x0c'

/-- Numeric value of an ASCII digit character. -/
def digitVal (c : Char) : Nat := c.toNat - 48

/-- Digit run of Python `int`: after the first digit, digits may be
separated by single underscores (`1_000`); an underscore must be followed
by a digit, and a trailing underscore is rejected. `acc` is the value of
the digits already consumed. -/
def pyDigitsAux (acc : Nat) : List Char → Option Nat
  | [] => some acc
  | c :: rest =>
    if c = '_' then
      match rest with
      | c2 :: rest2 =>
        if c2.isDigit then pyDigitsAux (10 * acc + digitVal c2) rest2 else none
      | [] => none
    else if c.isDigit then pyDigitsAux (10 * acc + digitVal c) rest
    else none

/-- Digit-run parser of Python `int`: at least one digit, underscores only
between digits. -/
def pyDigits : List Char → Option Nat
  | [] => none
  | c :: rest => if c.isDigit then pyDigitsAux (digitVal c) rest else none

/-- Python `str.strip()` as applied by `int(str)`: drop whitespace from
both ends. -/
def pyStrip (l : List Char) : List Char :=
  ((l.dropWhile isPySpace).reverse.dropWhile isPySpace).reverse

/-- Model of Python `int(s)` on an ASCII string `s` (base 10): strip
whitespace, allow one optional sign, then a digit run with optional
underscores between digits; `none` models the `ValueError`. -/
def pyInt (l : List Char) : Option Int :=
  match pyStrip l with
  | [] => none
  | c :: rest =>
    if c = '+' then (pyDigits rest).map (fun m => (m : Int))
    else if c = '-' then (pyDigits rest).map (fun m => -(m : Int))
    else (pyDigits (c :: rest)).map (fun m => (m : Int))

/-- Fuel-driven worker for `stripAll`; the fuel starts at the length of the
string, which is enough because every step consumes at least one character
when the pattern is nonempty. -/
def stripAllGo : Nat → List Char → List Char → List Char
  | _, _, [] => []
  | 0, _, s => s
  | fuel + 1, pat, c :: rest =>
    if pat.isPrefixOf (c :: rest) then stripAllGo fuel pat ((c :: rest).drop pat.length)
    else c :: stripAllGo fuel pat rest

/-- Model of Python `s.replace(old, "")` for a nonempty `old` (the source
only calls it with `"proc_"` and `"step_"`): remove every occurrence of
`pat`, scanning left to right, non-overlapping. -/
def stripAll (pat s : List Char) : List Char := stripAllGo s.length pat s

/-- The identifier decoding performed inline by `get_procedure` and
`get_step`: if the string starts with the prefix, delete every occurrence
of the prefix (Python `str.replace`) and parse the remainder with `int`,
otherwise parse the whole string with `int`. -/
def decode (pre s : List Char) : Option Int :=
  if pre.isPrefixOf s then pyInt (stripAll pre s) else pyInt s

/-! ## Data model: the rows read by the service -/

/-- A row of the `Procedures` table. -/
structure ProcedureRow where
  ProcedureID : Int
  Name : String
  Description : Option String
deriving DecidableEq

/-- A row of the `Steps` table. -/
structure StepRow where
  StepID : Int
  Title : String
  Body : String
  YOLOClass : Option String
deriving DecidableEq

/-- A row of the `Procedure_Steps` link table. -/
structure ProcedureStepRow where
  ProcedureID : Int
  StepID : Int
  OrderNum : Int
deriving DecidableEq

/-- Modelled from the spec: a row of the legacy `instructions` table
(ID, StepNum, InstructionText). The table and its root listing endpoint
are described in the spec but are not part of `backend/main.py`. -/
structure InstructionRow where
  ID : Int
  StepNum : Int
  InstructionText : String
deriving DecidableEq

/-- The database state visible to the service. -/
structure DB where
  procedures : List ProcedureRow
  steps : List StepRow
  procedure_steps : List ProcedureStepRow
  instructions : List InstructionRow

/-! ## Response models (the pydantic classes) -/

/-- Pydantic model `StepInProcedureResponse`. -/
structure StepInProcedureResponse where
  id : String
  instruction_id : String
  order : Int
deriving DecidableEq

/-- Pydantic model `ProcedureListResponse`. -/
structure ProcedureListResponse where
  id : String
  title : String
  description : String
deriving DecidableEq

/-- Pydantic model `ProcedureDetailResponse`. -/
structure ProcedureDetailResponse where
  id : String
  title : String
  description : String
  steps : List StepInProcedureResponse
deriving DecidableEq

/-- Pydantic model `StepDetailResponse`; `yolo_class` is optional, mirroring
`Optional[str]`. -/
structure StepDetailResponse where
  id : String
  title : String
  body : String
  yolo_class : Option String
deriving DecidableEq

/-- The payload of `fastapi.HTTPException`. -/
structure HTTPError where
  status_code : Nat
  detail : String
deriving DecidableEq

/-- The payload returned by the health endpoint. -/
structure HealthResponse where
  status : String
  message : String
deriving DecidableEq

/-! ## Endpoint handlers -/

/-- Handler of `GET /api/health`. -/
def health_check : HealthResponse :=
  { status := "ok", message := "Backend is running" }

/-- Handler of `GET /api/procedures`: one `ProcedureListResponse` per `Procedure`
row; `Description or ""` coalesces a missing description to `""`. -/
def list_procedures (db : DB) : List ProcedureListResponse :=
  db.procedures.map fun proc =>
    { id := "proc_" ++ toString proc.ProcedureID
      title := proc.Name
      description := proc.Description.getD "" }

/-- Ordering used by `order_by(ProcedureStep.OrderNum)`. -/
def stepLE (a b : ProcedureStepRow) : Prop := a.OrderNum ≤ b.OrderNum

instance : DecidableRel stepLE := fun _ _ => Int.decLe _ _

instance : IsTotal ProcedureStepRow stepLE := ⟨fun _ _ => Int.le_total _ _⟩

instance : IsTrans ProcedureStepRow stepLE := ⟨fun _ _ _ => Int.le_trans⟩

/-- Handler of `GET /api/procedures/...`, taking the path parameter. -/
def get_procedure (procedure_id : String) (db : DB) :
    Except HTTPError ProcedureDetailResponse :=
  match decode "proc_".data procedure_id.data with
  | none => .error ⟨404, "Procedure not found"⟩
  | some numeric_id =>
    match db.procedures.find? (fun p => p.ProcedureID == numeric_id) with
    | none => .error ⟨404, "Procedure not found"⟩
    | some procedure =>
      let procedure_steps :=
        List.insertionSort stepLE
          (db.procedure_steps.filter fun ps => ps.ProcedureID == numeric_id)
      let steps := procedure_steps.map fun ps =>
        { id := "step_" ++ toString ps.StepID
          instruction_id := "instr_" ++ toString ps.StepID
          order := ps.OrderNum : StepInProcedureResponse }
      .ok { id := "proc_" ++ toString procedure.ProcedureID
            title := procedure.Name
            description := procedure.Description.getD ""
            steps := steps }

/-- Handler of `GET /api/steps/...`, taking the path parameter. -/
def get_step (step_id : String) (db : DB) : Except HTTPError StepDetailResponse :=
  match decode "step_".data step_id.data with
  | none => .error ⟨404, "Step not found"⟩
  | some numeric_id =>
    match db.steps.find? (fun s => s.StepID == numeric_id) with
    | none => .error ⟨404, "Step not found"⟩
    | some step =>
      .ok { id := "step_" ++ toString step.StepID
            title := step.Title
            body := step.Body
            yolo_class := step.YOLOClass }

/-- Modelled from the spec: the legacy root listing endpoint `GET /`,
absent from `backend/main.py`; it returns HTTP 200 and the raw rows of the
legacy `instructions` table, with no filtering and no ID encoding. -/
def read_root (db : DB) : Nat × List InstructionRow :=
  (200, db.instructions)

/-! ## Lemmas about `stripAll` (the model of `str.replace(old, "")`) -/

theorem stripAllGo_irrel (pat : List Char) (hp : pat ≠ []) :
    ∀ (f₁ f₂ : Nat) (s : List Char), s.length ≤ f₁ → s.length ≤ f₂ →
      stripAllGo f₁ pat s = stripAllGo f₂ pat s := by
  have hplen : 0 < pat.length := List.length_pos.mpr hp
  intro f₁
  induction f₁ with
  | zero =>
    intro f₂ s h₁ _
    have : s = [] := List.eq_nil_of_length_eq_zero (Nat.le_zero.mp h₁)
    subst this
    cases f₂ <;> rfl
  | succ f ih =>
    intro f₂ s h₁ h₂
    cases s with
    | nil => cases f₂ <;> rfl
    | cons c rest =>
      cases f₂ with
      | zero => simp at h₂
      | succ f' =>
        show stripAllGo (f + 1) pat (c :: rest) = stripAllGo (f' + 1) pat (c :: rest)
        simp only [stripAllGo]
        by_cases hpre : pat.isPrefixOf (c :: rest)
        · rw [if_pos hpre, if_pos hpre]
          have hd : ((c :: rest).drop pat.length).length ≤ f := by
            simp only [List.length_drop, List.length_cons]
            simp only [List.length_cons] at h₁
            omega
          have hd' : ((c :: rest).drop pat.length).length ≤ f' := by
            simp only [List.length_drop, List.length_cons]
            simp only [List.length_cons] at h₂
            omega
          exact ih f' _ hd hd'
        · rw [if_neg hpre, if_neg hpre]
          have hr : rest.length ≤ f := by
            simp only [List.length_cons] at h₁; omega
          have hr' : rest.length ≤ f' := by
            simp only [List.length_cons] at h₂; omega
          rw [ih f' rest hr hr']

theorem stripAll_cons (pat : List Char) (hp : pat ≠ []) (c : Char) (rest : List Char) :
    stripAll pat (c :: rest) =
      if pat.isPrefixOf (c :: rest) then stripAll pat ((c :: rest).drop pat.length)
      else c :: stripAll pat rest := by
  have hplen : 0 < pat.length := List.length_pos.mpr hp
  show stripAllGo (c :: rest).length pat (c :: rest) = _
  simp only [List.length_cons, stripAllGo]
  by_cases hpre : pat.isPrefixOf (c :: rest)
  · rw [if_pos hpre, if_pos hpre]
    apply stripAllGo_irrel pat hp
    · simp only [List.length_drop, List.length_cons]; omega
    · exact Nat.le_refl _
  · rw [if_neg hpre, if_neg hpre]; rfl

theorem stripAll_append_self (pat : List Char) (hp : pat ≠ []) (s : List Char) :
    stripAll pat (pat ++ s) = stripAll pat s := by
  obtain ⟨p, pt, rfl⟩ := List.exists_cons_of_ne_nil hp
  rw [List.cons_append, stripAll_cons _ hp]
  have hpre : (p :: pt).isPrefixOf (p :: (pt ++ s)) = true := by
    rw [List.isPrefixOf_iff_prefix]
    exact List.prefix_append (p :: pt) s
  rw [if_pos hpre]
  have : (p :: (pt ++ s)).drop (p :: pt).length = s := by
    rw [← List.cons_append]
    exact List.drop_left (p :: pt) s
  rw [this]

theorem stripAll_of_head_notMem (p : Char) (pt : List Char) :
    ∀ s : List Char, p ∉ s → stripAll (p :: pt) s = s := by
  intro s
  induction s with
  | nil => intro _; rfl
  | cons c rest ih =>
    intro h
    have hpc : p ≠ c := fun he => h (he ▸ List.mem_cons_self c rest)
    have hpre : (p :: pt).isPrefixOf (c :: rest) = false := by
      show (p == c && pt.isPrefixOf rest) = false
      simp [hpc]
    rw [stripAll_cons _ (List.cons_ne_nil p pt), if_neg (by simp [hpre]),
      ih (fun hm => h (List.mem_cons_of_mem c hm))]

/-! ## Lemmas about decimal digits and `pyInt` -/

theorem digitChar_isDigit {m : Nat} (h : m < 10) : (Nat.digitChar m).isDigit = true := by
  interval_cases m <;> decide

theorem digitVal_digitChar {m : Nat} (h : m < 10) : digitVal (Nat.digitChar m) = m := by
  interval_cases m <;> decide

theorem isPySpace_isDigit {c : Char} (h : isPySpace c = true) : c.isDigit = false := by
  simp only [isPySpace, Bool.or_eq_true, decide_eq_true_eq] at h
  rcases h with ((((rfl | rfl) | rfl) | rfl) | rfl) | rfl <;> decide

theorem isPySpace_eq_false_of_isDigit {c : Char} (h : c.isDigit = true) :
    isPySpace c = false := by
  cases hps : isPySpace c with
  | false => rfl
  | true => rw [isPySpace_isDigit hps] at h; exact absurd h (by decide)

theorem isDigit_not_special {c : Char} (h : c.isDigit = true) :
    c ≠ '_' ∧ c ≠ '+' ∧ c ≠ '-' ∧ c ≠ 'p' ∧ c ≠ 's' := by
  refine ⟨?_, ?_, ?_, ?_, ?_⟩ <;> (intro he; rw [he] at h; exact absurd h (by decide))

theorem pyDigitsAux_digits (l : List Char) (h : ∀ c ∈ l, c.isDigit = true) :
    ∀ a : Nat, pyDigitsAux a l = some (l.foldl (fun x c => 10 * x + digitVal c) a) := by
  induction l with
  | nil => intro a; rfl
  | cons c rest ih =>
    intro a
    have hc := h c (List.mem_cons_self c rest)
    have hne := (isDigit_not_special hc).1
    cases rest with
    | nil =>
      rw [pyDigitsAux.eq_3, if_neg hne, if_pos hc]
      rfl
    | cons c2 rest2 =>
      rw [pyDigitsAux.eq_2, if_neg hne, if_pos hc,
        ih (fun x hx => h x (List.mem_cons_of_mem c hx)) (10 * a + digitVal c)]
      rfl

theorem toDigitsCore_spec :
    ∀ (fuel n : Nat) (acc : List Char), n < fuel →
      ∃ ds : List Char, Nat.toDigitsCore 10 fuel n acc = ds ++ acc ∧ ds ≠ [] ∧
        (∀ c ∈ ds, c.isDigit = true) ∧
        ds.foldl (fun x c => 10 * x + digitVal c) 0 = n := by
  intro fuel
  induction fuel with
  | zero => intro n _ h; exact absurd h (Nat.not_lt_zero n)
  | succ fuel ih =>
    intro n acc hn
    have heq : Nat.toDigitsCore 10 (fuel + 1) n acc =
        if n / 10 = 0 then Nat.digitChar (n % 10) :: acc
        else Nat.toDigitsCore 10 fuel (n / 10) (Nat.digitChar (n % 10) :: acc) := rfl
    have hm : n % 10 < 10 := Nat.mod_lt n (by omega)
    by_cases h0 : n / 10 = 0
    · refine ⟨[Nat.digitChar (n % 10)], ?_, by simp, ?_, ?_⟩
      · rw [heq, if_pos h0]; rfl
      · intro c hc
        rw [List.mem_singleton] at hc
        exact hc ▸ digitChar_isDigit hm
      · simp only [List.foldl_cons, List.foldl_nil, Nat.mul_zero, Nat.zero_add]
        rw [digitVal_digitChar hm]
        omega
    · have hrec : n / 10 < fuel := by omega
      obtain ⟨ds, hds, hne, hdig, hval⟩ := ih (n / 10) (Nat.digitChar (n % 10) :: acc) hrec
      refine ⟨ds ++ [Nat.digitChar (n % 10)], ?_, by simp, ?_, ?_⟩
      · rw [heq, if_neg h0, hds, List.append_assoc]; rfl
      · intro c hc
        rcases List.mem_append.mp hc with hc | hc
        · exact hdig c hc
        · rw [List.mem_singleton] at hc
          exact hc ▸ digitChar_isDigit hm
      · rw [List.foldl_append, hval]
        simp only [List.foldl_cons, List.foldl_nil]
        rw [digitVal_digitChar hm]
        omega

theorem toDigits_spec (n : Nat) :
    Nat.toDigits 10 n ≠ [] ∧ (∀ c ∈ Nat.toDigits 10 n, c.isDigit = true) ∧
      pyDigits (Nat.toDigits 10 n) = some n := by
  obtain ⟨ds, hds, hne, hdig, hval⟩ := toDigitsCore_spec (n + 1) n [] (Nat.lt_succ_self n)
  have htd : Nat.toDigits 10 n = ds := by rw [Nat.toDigits, hds, List.append_nil]
  refine ⟨htd ▸ hne, htd ▸ hdig, ?_⟩
  rw [htd]
  cases ds with
  | nil => exact absurd rfl hne
  | cons c rest =>
    have hc := hdig c (List.mem_cons_self c rest)
    simp only [pyDigits]
    rw [if_pos hc, pyDigitsAux_digits rest (fun x hx => hdig x (List.mem_cons_of_mem c hx))]
    rw [List.foldl_cons] at hval
    simp only [Nat.mul_zero, Nat.zero_add] at hval
    rw [hval]

theorem dropWhile_eq_self_of_false {p : Char → Bool} {l : List Char}
    (h : ∀ c ∈ l, p c = false) : l.dropWhile p = l := by
  cases l with
  | nil => rfl
  | cons c rest =>
    rw [List.dropWhile_cons, if_neg (by simp [h c (List.mem_cons_self c rest)])]

theorem pyStrip_eq_self {l : List Char} (h : ∀ c ∈ l, isPySpace c = false) :
    pyStrip l = l := by
  unfold pyStrip
  rw [dropWhile_eq_self_of_false h,
    dropWhile_eq_self_of_false (fun c hc => h c (List.mem_reverse.mp hc)),
    List.reverse_reverse]

theorem pyInt_natRepr (n : Nat) : pyInt (Nat.repr n).data = some (n : Int) := by
  obtain ⟨hne, hdig, hval⟩ := toDigits_spec n
  have hdata : (Nat.repr n).data = Nat.toDigits 10 n := rfl
  rw [hdata]
  have hstrip : pyStrip (Nat.toDigits 10 n) = Nat.toDigits 10 n :=
    pyStrip_eq_self (fun c hc => isPySpace_eq_false_of_isDigit (hdig c hc))
  cases htd : Nat.toDigits 10 n with
  | nil => exact absurd htd hne
  | cons c rest =>
    have hc := hdig c (htd ▸ List.mem_cons_self c rest)
    obtain ⟨_, hplus, hminus, _⟩ := isDigit_not_special hc
    rw [htd] at hstrip hval
    simp only [pyInt, hstrip]
    rw [if_neg hplus, if_neg hminus, hval]
    rfl

theorem pyInt_toString_int (n : Int) : pyInt (toString n).data = some n := by
  cases n with
  | ofNat m => exact pyInt_natRepr m
  | negSucc m =>
    have hdata : (toString (Int.negSucc m)).data = '-' :: (Nat.repr (m + 1)).data := rfl
    rw [hdata]
    obtain ⟨hne, hdig, hval⟩ := toDigits_spec (m + 1)
    have hrepr : (Nat.repr (m + 1)).data = Nat.toDigits 10 (m + 1) := rfl
    rw [hrepr]
    have hstrip : pyStrip ('-' :: Nat.toDigits 10 (m + 1)) = '-' :: Nat.toDigits 10 (m + 1) := by
      apply pyStrip_eq_self
      intro c hc
      rcases List.mem_cons.mp hc with rfl | hc
      · decide
      · exact isPySpace_eq_false_of_isDigit (hdig c hc)
    simp only [pyInt, hstrip]
    rw [hval]
    simp [Int.negSucc_eq]

/-- Every character of the decimal rendering of an integer is a digit or
the minus sign. -/
theorem mem_toString_int (n : Int) :
    ∀ c ∈ (toString n).data, c = '-' ∨ c.isDigit = true := by
  cases n with
  | ofNat m =>
    intro c hc
    exact Or.inr ((toDigits_spec m).2.1 c hc)
  | negSucc m =>
    intro c hc
    have hdata : (toString (Int.negSucc m)).data = '-' :: Nat.toDigits 10 (m + 1) := rfl
    rw [hdata] at hc
    rcases List.mem_cons.mp hc with rfl | hc
    · exact Or.inl rfl
    · exact Or.inr ((toDigits_spec (m + 1)).2.1 c hc)

/-- Decoding a string made of the prefix followed by a suffix free of the
prefix's head character parses the suffix with `int`. -/
theorem decode_append {pre : List Char} {p : Char} {pt : List Char} (hpre : pre = p :: pt)
    {s : List Char} (h : p ∉ s) : decode pre (pre ++ s) = pyInt s := by
  unfold decode
  have hpf : pre.isPrefixOf (pre ++ s) = true := by
    rw [List.isPrefixOf_iff_prefix]
    exact List.prefix_append pre s
  rw [if_pos hpf, stripAll_append_self pre (by rw [hpre]; exact List.cons_ne_nil p pt) s,
    hpre, stripAll_of_head_notMem p pt s h]

/-- Round trip of the identifier codec: decoding an encoded identifier
`pre ++ toString n` recovers `n`, provided the head character of the
prefix is neither a digit nor the minus sign. -/
theorem decode_toString (pre : List Char) (p : Char) (pt : List Char) (hpre : pre = p :: pt)
    (hd : p.isDigit = false) (hm : p ≠ '-') (n : Int) :
    decode pre (pre ++ (toString n).data) = some n := by
  rw [decode_append hpre, pyInt_toString_int]
  intro hmem
  rcases mem_toString_int n p hmem with rfl | hdig
  · exact hm rfl
  · rw [hdig] at hd; exact absurd hd (by decide)

/-! ## Characterization of the endpoint handlers -/

/-- The only error `get_procedure` ever raises. -/
theorem get_procedure_error_unique (s : String) (db : DB) (e : HTTPError)
    (h : get_procedure s db = .error e) : e = ⟨404, "Procedure not found"⟩ := by
  unfold get_procedure at h
  split at h
  · cases h; rfl
  · split at h
    · cases h; rfl
    · cases h

/-- The only error `get_step` ever raises. -/
theorem get_step_error_unique (s : String) (db : DB) (e : HTTPError)
    (h : get_step s db = .error e) : e = ⟨404, "Step not found"⟩ := by
  unfold get_step at h
  split at h
  · cases h; rfl
  · split at h
    · cases h; rfl
    · cases h

/-- The handler `get_procedure` answers 404 exactly on decode failure or missing row. -/
theorem get_procedure_error_iff (s : String) (db : DB) :
    get_procedure s db = .error ⟨404, "Procedure not found"⟩ ↔
      decode "proc_".data s.data = none ∨
      ∃ n, decode "proc_".data s.data = some n ∧
        db.procedures.find? (fun p => p.ProcedureID == n) = none := by
  unfold get_procedure
  cases hd : decode "proc_".data s.data with
  | none => simp [hd]
  | some n =>
    cases hf : db.procedures.find? (fun p => p.ProcedureID == n) with
    | none =>
      simp [hf]
      exact fun x hx => by simpa using List.find?_eq_none.mp hf x hx
    | some procedure =>
      simp [hf]
      exact ⟨procedure, List.mem_of_find?_eq_some hf, by simpa using List.find?_some hf⟩

/-- The handler `get_step` answers 404 exactly on decode failure or missing row. -/
theorem get_step_error_iff (s : String) (db : DB) :
    get_step s db = .error ⟨404, "Step not found"⟩ ↔
      decode "step_".data s.data = none ∨
      ∃ n, decode "step_".data s.data = some n ∧
        db.steps.find? (fun r => r.StepID == n) = none := by
  unfold get_step
  cases hd : decode "step_".data s.data with
  | none => simp [hd]
  | some n =>
    cases hf : db.steps.find? (fun r => r.StepID == n) with
    | none =>
      simp [hf]
      exact fun x hx => by simpa using List.find?_eq_none.mp hf x hx
    | some step =>
      simp [hf]
      exact ⟨step, List.mem_of_find?_eq_some hf, by simpa using List.find?_some hf⟩

/-- Inversion of a successful `get_procedure`. -/
theorem get_procedure_ok {s : String} {db : DB} {resp : ProcedureDetailResponse}
    (h : get_procedure s db = .ok resp) :
    ∃ n procedure, decode "proc_".data s.data = some n ∧
      db.procedures.find? (fun p => p.ProcedureID == n) = some procedure ∧
      resp = { id := "proc_" ++ toString procedure.ProcedureID
               title := procedure.Name
               description := procedure.Description.getD ""
               steps :=
                 (List.insertionSort stepLE
                     (db.procedure_steps.filter fun ps => ps.ProcedureID == n)).map
                   fun ps =>
                     { id := "step_" ++ toString ps.StepID
                       instruction_id := "instr_" ++ toString ps.StepID
                       order := ps.OrderNum } } := by
  unfold get_procedure at h
  split at h
  · cases h
  next n hd =>
    split at h
    · cases h
    next procedure hf =>
      cases h
      exact ⟨n, procedure, hd, hf, rfl⟩

/-- Inversion of a successful `get_step`. -/
theorem get_step_ok {s : String} {db : DB} {resp : StepDetailResponse}
    (h : get_step s db = .ok resp) :
    ∃ n step, decode "step_".data s.data = some n ∧
      db.steps.find? (fun r => r.StepID == n) = some step ∧
      resp = { id := "step_" ++ toString step.StepID
               title := step.Title
               body := step.Body
               yolo_class := step.YOLOClass } := by
  unfold get_step at h
  split at h
  · cases h
  next n hd =>
    split at h
    · cases h
    next step hf =>
      cases h
      exact ⟨n, step, hd, hf, rfl⟩

/-- The handler `get_procedure` depends on its input string only through the decoded
integer. -/
theorem get_procedure_decode_congr (s t : String) (db : DB)
    (h : decode "proc_".data s.data = decode "proc_".data t.data) :
    get_procedure s db = get_procedure t db := by
  unfold get_procedure
  rw [h]

/-- The handler `get_step` depends on its input string only through the decoded
integer. -/
theorem get_step_decode_congr (s t : String) (db : DB)
    (h : decode "step_".data s.data = decode "step_".data t.data) :
    get_step s db = get_step t db := by
  unfold get_step
  rw [h]

/-! ## Claims -/

/-- The decoding as the claim words it (refinement reference, written from
the spec's words, to be compared with `decode`, the definition from the
source): strip one optional occurrence of the matching prefix, then parse
the remainder as a base-10 integer. -/
def decodeSpecOnce (pre s : List Char) : Option Int :=
  if pre.isPrefixOf s then pyInt (s.drop pre.length) else pyInt s

/-- Closed form of `decode`: parse (with Python `int`) the string with all
occurrences of the prefix removed when it starts with the prefix, the
whole string otherwise. -/
theorem decode_eq_pyInt (pre s : List Char) :
    decode pre s = pyInt (if pre.isPrefixOf s then stripAll pre s else s) := by
  unfold decode
  exact (apply_ite pyInt _ _ _).symm

/-- C1, counterexample: on `"proc_proc_7"` the remainder after stripping
one optional matching prefix is `"proc_7"`, which is not a valid integer,
so under the claimed decoding `get_procedure` would have to fail with
NotFound; the code instead strips every occurrence of `"proc_"`, decodes
`7`, and succeeds. -/
theorem c1_counterexample :
    decodeSpecOnce "proc_".data "proc_proc_7".data = none ∧
    pyInt ("proc_proc_7".data.drop "proc_".data.length) = none ∧
    get_procedure "proc_proc_7" ⟨[⟨7, "Oil change", none⟩], [], [], []⟩ =
      .ok ⟨"proc_7", "Oil change", "", []⟩ :=
  ⟨by decide, by decide, rfl⟩

/-- C1 (amended): decoding removes every occurrence of the matching prefix
when the string starts with it (otherwise takes the string whole) and
parses the remainder as a base-10 integer; the operation fails with the
NotFound error exactly when that remainder is not a valid integer, and a
valid-but-absent id fails with the identical error, so malformed input is
never distinguished from absent input (and analogously for `get_step`
with the `"step_"` prefix). -/
theorem c1_decode_not_found :
    (∀ s : String, decode "proc_".data s.data =
      pyInt (if "proc_".data.isPrefixOf s.data then stripAll "proc_".data s.data
             else s.data)) ∧
    (∀ (s : String) (db : DB),
      pyInt (if "proc_".data.isPrefixOf s.data then stripAll "proc_".data s.data
             else s.data) = none →
      get_procedure s db = .error ⟨404, "Procedure not found"⟩) ∧
    (∀ (s : String) (db : DB) (n : Int),
      decode "proc_".data s.data = some n →
      db.procedures.find? (fun p => p.ProcedureID == n) = none →
      get_procedure s db = .error ⟨404, "Procedure not found"⟩) ∧
    (∀ s : String, decode "step_".data s.data =
      pyInt (if "step_".data.isPrefixOf s.data then stripAll "step_".data s.data
             else s.data)) ∧
    (∀ (s : String) (db : DB),
      pyInt (if "step_".data.isPrefixOf s.data then stripAll "step_".data s.data
             else s.data) = none →
      get_step s db = .error ⟨404, "Step not found"⟩) ∧
    (∀ (s : String) (db : DB) (n : Int),
      decode "step_".data s.data = some n →
      db.steps.find? (fun r => r.StepID == n) = none →
      get_step s db = .error ⟨404, "Step not found"⟩) := by
  refine ⟨fun s => decode_eq_pyInt _ _, fun s db h => ?_, fun s db n hd hf => ?_,
    fun s => decode_eq_pyInt _ _, fun s db h => ?_, fun s db n hd hf => ?_⟩
  · exact (get_procedure_error_iff s db).mpr (Or.inl ((decode_eq_pyInt _ _).trans h))
  · exact (get_procedure_error_iff s db).mpr (Or.inr ⟨n, hd, hf⟩)
  · exact (get_step_error_iff s db).mpr (Or.inl ((decode_eq_pyInt _ _).trans h))
  · exact (get_step_error_iff s db).mpr (Or.inr ⟨n, hd, hf⟩)

/-- C1, witness: a malformed id and a valid-but-absent id both produce the
NotFound error. -/
theorem c1_witness :
    get_procedure "abc" ⟨[], [], [], []⟩ = .error ⟨404, "Procedure not found"⟩ ∧
    get_procedure "proc_999" ⟨[⟨1, "t", none⟩], [], [], []⟩ =
      .error ⟨404, "Procedure not found"⟩ ∧
    get_step "xyz" ⟨[], [], [], []⟩ = .error ⟨404, "Step not found"⟩ :=
  ⟨c1_decode_not_found.2.1 "abc" _ (by decide),
   c1_decode_not_found.2.2.1 "proc_999" _ 999 (by decide) (by decide),
   c1_decode_not_found.2.2.2.2.1 "xyz" _ (by decide)⟩

/-- C2: `get_procedure` answers the 404 response with detail
"Procedure not found" exactly when the id fails to decode or no row with
the decoded primary key exists, that 404 is the only error it raises, and
likewise `get_step` with detail "Step not found". -/
theorem c2_not_found_iff :
    (∀ (s : String) (db : DB),
      (get_procedure s db = .error ⟨404, "Procedure not found"⟩ ↔
        decode "proc_".data s.data = none ∨
        ∃ n, decode "proc_".data s.data = some n ∧
          ∀ p ∈ db.procedures, p.ProcedureID ≠ n) ∧
      ∀ e, get_procedure s db = .error e → e = ⟨404, "Procedure not found"⟩) ∧
    (∀ (s : String) (db : DB),
      (get_step s db = .error ⟨404, "Step not found"⟩ ↔
        decode "step_".data s.data = none ∨
        ∃ n, decode "step_".data s.data = some n ∧
          ∀ r ∈ db.steps, r.StepID ≠ n) ∧
      ∀ e, get_step s db = .error e → e = ⟨404, "Step not found"⟩) := by
  constructor
  · intro s db
    refine ⟨?_, get_procedure_error_unique s db⟩
    rw [get_procedure_error_iff]
    simp only [List.find?_eq_none, beq_iff_eq, ne_eq]
  · intro s db
    refine ⟨?_, get_step_error_unique s db⟩
    rw [get_step_error_iff]
    simp only [List.find?_eq_none, beq_iff_eq, ne_eq]

/-- C2, witness: an unparseable id and a numerically-valid-but-absent id
produce the identical 404 response. -/
theorem c2_witness :
    get_procedure "abc!" ⟨[⟨1, "t", some "d"⟩], [], [], []⟩ =
      .error ⟨404, "Procedure not found"⟩ ∧
    get_procedure "proc_999" ⟨[⟨1, "t", some "d"⟩], [], [], []⟩ =
      .error ⟨404, "Procedure not found"⟩ ∧
    get_step "step_9" ⟨[], [⟨5, "T", "B", none⟩], [], []⟩ =
      .error ⟨404, "Step not found"⟩ :=
  ⟨((c2_not_found_iff.1 "abc!" _).1).mpr (Or.inl (by decide)),
   ((c2_not_found_iff.1 "proc_999" _).1).mpr (Or.inr ⟨999, by decide, by decide⟩),
   ((c2_not_found_iff.2 "step_9" _).1).mpr (Or.inr ⟨9, by decide, by decide⟩)⟩

/-- C3: decoding the encoded identifier `"proc_"` followed by the decimal
rendering of `n` (as `get_procedure` builds it) yields `n` again. -/
theorem c3_decode_encode (n : Int) :
    decode "proc_".data ("proc_" ++ toString n).data = some n := by
  rw [String.data_append]
  exact decode_toString "proc_".data 'p' "roc_".data (by decide) (by decide) (by decide) n

/-- C4: the steps array of every successful `get_procedure` response is
sorted in ascending order of `OrderNum`, whatever the stored order of the
`ProcedureStep` rows. -/
theorem c4_steps_sorted (s : String) (db : DB) (resp : ProcedureDetailResponse)
    (h : get_procedure s db = .ok resp) :
    List.Sorted (· ≤ ·) (resp.steps.map StepInProcedureResponse.order) := by
  obtain ⟨n, procedure, _, _, rfl⟩ := get_procedure_ok h
  simp only [List.map_map]
  exact (List.sorted_insertionSort stepLE _).map _ (fun a b hab => hab)

/-- C4, witness: rows stored with `OrderNum` `[2, 1, 3]` come back with
orders `[1, 2, 3]`. -/
theorem c4_witness :
    List.Sorted (· ≤ ·)
      ((⟨"proc_1", "Job", "d",
          [⟨"step_102", "instr_102", 1⟩, ⟨"step_101", "instr_101", 2⟩,
           ⟨"step_103", "instr_103", 3⟩]⟩ : ProcedureDetailResponse).steps.map
        StepInProcedureResponse.order) :=
  c4_steps_sorted "proc_1"
    ⟨[⟨1, "Job", some "d"⟩], [],
     [⟨1, 101, 2⟩, ⟨1, 102, 1⟩, ⟨1, 103, 3⟩], []⟩ _ rfl

/-- C5: `get_step` passes the stored `YOLOClass` through unchanged (null
stays null), while `list_procedures` and `get_procedure` coalesce a null
`Description` to the empty string. -/
theorem c5_null_handling :
    (∀ (s : String) (db : DB) (resp : StepDetailResponse),
      get_step s db = .ok resp →
      ∃ r, r ∈ db.steps ∧ resp.yolo_class = r.YOLOClass) ∧
    (∀ (db : DB) (entry : ProcedureListResponse), entry ∈ list_procedures db →
      ∃ p, p ∈ db.procedures ∧
        (p.Description = none → entry.description = "") ∧
        ∀ d, p.Description = some d → entry.description = d) ∧
    (∀ (s : String) (db : DB) (resp : ProcedureDetailResponse),
      get_procedure s db = .ok resp →
      ∃ p, p ∈ db.procedures ∧
        (p.Description = none → resp.description = "") ∧
        ∀ d, p.Description = some d → resp.description = d) := by
  refine ⟨fun s db resp h => ?_, fun db entry h => ?_, fun s db resp h => ?_⟩
  · obtain ⟨n, step, _, hf, rfl⟩ := get_step_ok h
    exact ⟨step, List.mem_of_find?_eq_some hf, rfl⟩
  · obtain ⟨p, hp, rfl⟩ := List.mem_map.mp h
    exact ⟨p, hp, fun hnone => by simp [hnone], fun d hd => by simp [hd]⟩
  · obtain ⟨n, procedure, _, hf, rfl⟩ := get_procedure_ok h
    exact ⟨procedure, List.mem_of_find?_eq_some hf,
      fun hnone => by simp [hnone], fun d hd => by simp [hd]⟩

/-- C5, witness: a step with null `YOLOClass` keeps `yolo_class` null, a
procedure with null `Description` answers the empty string. -/
theorem c5_witness :
    (∃ r, r ∈ (⟨[], [⟨5, "T", "B", none⟩], [], []⟩ : DB).steps ∧
      (⟨"step_5", "T", "B", none⟩ : StepDetailResponse).yolo_class = r.YOLOClass) ∧
    (∃ p, p ∈ (⟨[⟨1, "P", none⟩], [], [], []⟩ : DB).procedures ∧
      (p.Description = none →
        (⟨"proc_1", "P", ""⟩ : ProcedureListResponse).description = "") ∧
      ∀ d, p.Description = some d →
        (⟨"proc_1", "P", ""⟩ : ProcedureListResponse).description = d) :=
  ⟨c5_null_handling.1 "step_5" ⟨[], [⟨5, "T", "B", none⟩], [], []⟩ _ rfl,
   c5_null_handling.2.1 ⟨[⟨1, "P", none⟩], [], [], []⟩ ⟨"proc_1", "P", ""⟩ (by decide)⟩

/-- C6: every step entry emitted by `get_procedure` is built from a stored
`ProcedureStep` row: `id` is `"step_"` + its `StepID`, `instruction_id` is
`"instr_"` + the same `StepID`, and `order` is its `OrderNum`. -/
theorem c6_step_entries (s : String) (db : DB) (resp : ProcedureDetailResponse)
    (h : get_procedure s db = .ok resp) :
    ∀ e ∈ resp.steps, ∃ ps, ps ∈ db.procedure_steps ∧
      e.id = "step_" ++ toString ps.StepID ∧
      e.instruction_id = "instr_" ++ toString ps.StepID ∧
      e.order = ps.OrderNum := by
  obtain ⟨n, procedure, _, _, rfl⟩ := get_procedure_ok h
  intro e he
  obtain ⟨ps, hps, rfl⟩ := List.mem_map.mp he
  have hmem : ps ∈ db.procedure_steps :=
    (List.mem_filter.mp ((List.mem_insertionSort stepLE).mp hps)).1
  exact ⟨ps, hmem, rfl, rfl, rfl⟩

/-- C6, witness: the entry for the row with `StepID` 102 carries both
prefixed spellings of 102 and its `OrderNum`. -/
theorem c6_witness :
    ∃ ps, ps ∈ (⟨[⟨1, "Job", some "d"⟩], [],
        [⟨1, 101, 2⟩, ⟨1, 102, 1⟩, ⟨1, 103, 3⟩], []⟩ : DB).procedure_steps ∧
      (⟨"step_102", "instr_102", 1⟩ : StepInProcedureResponse).id =
        "step_" ++ toString ps.StepID ∧
      (⟨"step_102", "instr_102", 1⟩ : StepInProcedureResponse).instruction_id =
        "instr_" ++ toString ps.StepID ∧
      (⟨"step_102", "instr_102", 1⟩ : StepInProcedureResponse).order = ps.OrderNum :=
  c6_step_entries "proc_1"
    ⟨[⟨1, "Job", some "d"⟩], [], [⟨1, 101, 2⟩, ⟨1, 102, 1⟩, ⟨1, 103, 3⟩], []⟩
    ⟨"proc_1", "Job", "d",
      [⟨"step_102", "instr_102", 1⟩, ⟨"step_101", "instr_101", 2⟩,
       ⟨"step_103", "instr_103", 3⟩]⟩ rfl
    ⟨"step_102", "instr_102", 1⟩ (by simp)

/-- C7: `list_procedures` maps each `Procedure` row to exactly one entry
with the `"proc_"`-prefixed id and the row's name, and on an empty table
it returns the empty array (it cannot raise an error). -/
theorem c7_list_procedures :
    (∀ db : DB, list_procedures db = db.procedures.map fun p =>
      { id := "proc_" ++ toString p.ProcedureID
        title := p.Name
        description := p.Description.getD "" }) ∧
    ∀ db : DB, db.procedures = [] → list_procedures db = [] := by
  refine ⟨fun db => rfl, fun db h => ?_⟩
  unfold list_procedures
  rw [h]
  rfl

/-- C7, witness: the empty table yields the empty listing. -/
theorem c7_witness : list_procedures ⟨[], [], [], []⟩ = [] :=
  c7_list_procedures.2 ⟨[], [], [], []⟩ rfl

/-- C8: the health check is the constant payload
`{status: "ok", message: "Backend is running"}`; it takes no input and
touches no database state. -/
theorem c8_health_check :
    health_check = { status := "ok", message := "Backend is running" } := rfl

/-- C9: the legacy root listing endpoint returns status 200 and the raw
rows of the `instructions` table, unfiltered and unencoded (the endpoint
is modelled from the spec; it is not part of `backend/main.py`). -/
theorem c9_read_root (db : DB) :
    (read_root db).1 = 200 ∧ (read_root db).2 = db.instructions :=
  ⟨rfl, rfl⟩

/-- C10: the id of a successful detail response is the canonical
re-encoding of the looked-up row's primary key, not an echo of the request
string; any two accepted spellings with the same decoded integer get the
identical response. -/
theorem c10_canonical_id :
    (∀ (s t : String) (db : DB),
      decode "proc_".data s.data = decode "proc_".data t.data →
      get_procedure s db = get_procedure t db) ∧
    (∀ (s : String) (db : DB) (resp : ProcedureDetailResponse),
      get_procedure s db = .ok resp →
      ∃ p, p ∈ db.procedures ∧ decode "proc_".data s.data = some p.ProcedureID ∧
        resp.id = "proc_" ++ toString p.ProcedureID) ∧
    (∀ (s t : String) (db : DB),
      decode "step_".data s.data = decode "step_".data t.data →
      get_step s db = get_step t db) ∧
    (∀ (s : String) (db : DB) (resp : StepDetailResponse),
      get_step s db = .ok resp →
      ∃ r, r ∈ db.steps ∧ decode "step_".data s.data = some r.StepID ∧
        resp.id = "step_" ++ toString r.StepID) := by
  refine ⟨get_procedure_decode_congr, fun s db resp h => ?_,
    get_step_decode_congr, fun s db resp h => ?_⟩
  · obtain ⟨n, procedure, hd, hf, rfl⟩ := get_procedure_ok h
    have hn : procedure.ProcedureID = n := by simpa using List.find?_some hf
    exact ⟨procedure, List.mem_of_find?_eq_some hf, hn ▸ hd, rfl⟩
  · obtain ⟨n, step, hd, hf, rfl⟩ := get_step_ok h
    have hn : step.StepID = n := by simpa using List.find?_some hf
    exact ⟨step, List.mem_of_find?_eq_some hf, hn ▸ hd, rfl⟩

/-- C10, witness: the spellings `"proc_proc_7"`, `"proc_07"` and `"7"` all
decode to 7 and receive the same response as `"proc_7"`. -/
theorem c10_witness :
    get_procedure "proc_proc_7" ⟨[⟨7, "t", none⟩], [], [], []⟩ =
      get_procedure "7" ⟨[⟨7, "t", none⟩], [], [], []⟩ ∧
    get_procedure "proc_07" ⟨[⟨7, "t", none⟩], [], [], []⟩ =
      get_procedure "proc_7" ⟨[⟨7, "t", none⟩], [], [], []⟩ :=
  ⟨c10_canonical_id.1 "proc_proc_7" "7" _ (by decide),
   c10_canonical_id.1 "proc_07" "proc_7" _ (by decide)⟩

end MechAI
